/-
Verification of the Calculus repository (sarahkittyy/Calculus) against its
natural-language specification.

The repository is a small numerical-calculus toolkit in C++: rounding,
finite-difference differentiation, Riemann-sum integration, Newton's-method
root finding, function iteration, and a terminal grapher.  Two headers exist:
`Calculus.h` (LARGE = 1000000) and `include/Calculus.h` (LARGE = 10000, the
fuller file, which also carries the definite-integral sign convention and the
grapher).  The spec consolidates the two and pins the `include/` semantics,
so the shallow embedding below follows `src/include/Calculus.h`.

Modelling conventions:
  * C++ `double` values are embedded as exact rationals (ℚ).  All engine
    arithmetic (sums, products, floors) is therefore exact; this is the
    idealisation under which the spec's numeric expectations are stated.
  * C++ `long`/`int` values are embedded as ℤ; C++ integer division
    truncates toward zero, which is `Int.tdiv`.
  * A `double` cast to `long` truncates toward zero (`trunc` below).
  * For the one claim about IEEE non-finite propagation, a separate model
    `FPModel` embeds doubles as `FP`: either a finite rational or a single
    absorbing non-finite element standing for ±infinity and NaN.
-/
import Mathlib

namespace CalcInc

/-- `const double LARGE = 10000.0;` from `src/include/Calculus.h`. -/
def LARGE : ℚ := 10000

/-- `const double SMALL = 1/LARGE;` -/
def SMALL : ℚ := 1 / LARGE

/-- `const int ACCURACY = std::log10(LARGE)-1;` — `log10(10000.0)` is exactly
`4.0`, so `ACCURACY = 3`. -/
def ACCURACY : ℕ := 3

/-- `constexpr double round(double value, unsigned places)`:
`int prod = std::pow(10, places); return std::floor(value * prod + 0.5) / prod;`
(`std::pow(10, places)` is exactly the integer `10 ^ places` for the small
exponents in use). -/
def round (value : ℚ) (places : ℕ) : ℚ :=
  let prod : ℤ := 10 ^ places
  (⌊value * (prod : ℚ) + 0.5⌋ : ℚ) / (prod : ℚ)

/-- `Func derivative(Func fx)`: returns
`[&](double x) { return round((fx(x+SMALL)-fx(x))*LARGE, ACCURACY); }`. -/
def derivative (fx : ℚ → ℚ) : ℚ → ℚ :=
  fun x => round ((fx (x + SMALL) - fx x) * LARGE) ACCURACY

/-- Instrumented call-counting semantics of one application of a
caller-supplied `Func`: returns the value together with the incremented
count of calls made so far. -/
def callFx (fx : ℚ → ℚ) (x : ℚ) (calls : ℕ) : ℚ × ℕ :=
  (fx x, calls + 1)

/-- Instrumented call-counting semantics of the lambda body returned by
`derivative`: the same two applications of `fx` as in the source
(`fx(x+SMALL)` and `fx(x)`), each threaded through `callFx`, followed by the
same `round` call.  The second component is the total number of calls to
`fx`. -/
def derivativeCount (fx : ℚ → ℚ) (x : ℚ) : ℚ × ℕ :=
  let a := callFx fx (x + SMALL) 0
  let b := callFx fx x a.2
  (round ((a.1 - b.1) * LARGE) ACCURACY, b.2)

/-- The accumulation loop of `integral_definite` from `src/include/Calculus.h`:
`double ret = 0; for(double i = lower; i <= std::abs(upper); i += SMALL) ret += fx(i)*SMALL;`
embedded as recursion on the loop variable `i` against the fixed bound
`bound = std::abs(upper)`, accumulating into `ret`. -/
def integralLoop (fx : ℚ → ℚ) (bound i ret : ℚ) : ℚ :=
  if _h : i ≤ bound then integralLoop fx bound (i + SMALL) (ret + fx i * SMALL)
  else ret
termination_by (⌊(bound - i) * LARGE⌋ + 2).toNat
decreasing_by
  have h1 : (bound - (i + SMALL)) * LARGE = (bound - i) * LARGE - 1 := by
    simp only [SMALL, LARGE]; ring
  have h2 : ⌊(bound - i) * LARGE - 1⌋ = ⌊(bound - i) * LARGE⌋ - 1 := by
    rw [show ((bound - i) * LARGE - 1 : ℚ)
          = (bound - i) * LARGE + ((-1 : ℤ) : ℚ) by push_cast; ring,
        Int.floor_add_int]
    omega
  have h3 : (0 : ℤ) ≤ ⌊(bound - i) * LARGE⌋ :=
    Int.floor_nonneg.mpr (by
      have hbi : (0 : ℚ) ≤ bound - i := by linarith
      have hL : (0 : ℚ) ≤ LARGE := by norm_num [LARGE]
      exact mul_nonneg hbi hL)
  rw [h1, h2]
  omega

/-- `double integral_definite(Func fx, double lower, double upper)` from
`src/include/Calculus.h`: runs the accumulation loop over `[lower, |upper|]`,
then `int sign = (upper < 0) ? (-1) : (1); return round(ret*sign, ACCURACY);`. -/
def integral_definite (fx : ℚ → ℚ) (lower upper : ℚ) : ℚ :=
  let ret := integralLoop fx |upper| lower 0
  let sign : ℚ := if upper < 0 then -1 else 1
  round (ret * sign) ACCURACY

/-- `Func integral(Func fx, double valid_value = 0)`: returns
`[=, &fx](double x) { return integral_definite(fx, valid_value, x); }`. -/
def integral (fx : ℚ → ℚ) (valid_value : ℚ) : ℚ → ℚ :=
  fun x => integral_definite fx valid_value x

/-- Modelled from the spec's words (for the refinement statement of the
definite-integral claim): the number of grid points visited when stepping
from `lower` up to `bound` by `SMALL`, i.e. the number of `k` with
`lower + k*SMALL ≤ bound` (zero when `lower > bound`). -/
def gridCount (lower bound : ℚ) : ℕ :=
  if lower ≤ bound then (⌊(bound - lower) * LARGE⌋ + 1).toNat else 0

/-- Modelled from the spec's words: "summing `fx` times `SMALL` over the grid
`[lower, bound]` stepping by `SMALL`". -/
def specGridSum (fx : ℚ → ℚ) (lower bound : ℚ) : ℚ :=
  ∑ k ∈ Finset.range (gridCount lower bound), fx (lower + k * SMALL) * SMALL

/-- `double roots(Func fx, double initial = 0, unsigned iter = 100)`:
`if(iter == 0) return initial; else return roots(fx, initial - (fx(initial)/derivative(fx)(initial)), iter-1);`
(`iter` is C++ `unsigned`, embedded as ℕ; the `iter-1` of the guarded else
branch is the predecessor). -/
def roots (fx : ℚ → ℚ) (initial : ℚ) (iter : ℕ) : ℚ :=
  match iter with
  | 0 => initial
  | n + 1 => roots fx (initial - fx initial / derivative fx initial) n

/-- The Newton update applied once per recursive call of `roots`:
`initial - (fx(initial)/derivative(fx)(initial))`. -/
def newtonStep (fx : ℚ → ℚ) (x : ℚ) : ℚ :=
  x - fx x / derivative fx x

/-- `double iterate(Func fx, double times, double value)`:
`if(times <= 0) return value; else return fx(iterate(fx, times-1, value));`
(`times` is a C++ `double`, embedded as ℚ). -/
def iterate (fx : ℚ → ℚ) (times : ℚ) (value : ℚ) : ℚ :=
  if _h : times ≤ 0 then value
  else fx (iterate fx (times - 1) value)
termination_by ⌈times⌉.toNat
decreasing_by
  rw [show (times - 1 : ℚ) = times - ((1 : ℤ) : ℚ) by push_cast; ring,
      Int.ceil_sub_int]
  have hpos : 0 < ⌈times⌉ := Int.ceil_pos.mpr (by linarith)
  omega

end CalcInc

/-
The model for the error-handling claim about `roots`.  IEEE-754 doubles are
embedded as `FP`: either an exact finite rational or the single element
`nonfin`, which stands for all non-finite doubles (+∞, -∞ and NaN) at once.
`nonfin` is absorbing for the embedded `+`, `-`, `*`, `/` and `floor`; in
IEEE arithmetic every one of these operations on a non-finite operand again
yields a non-finite value, with the single exception of a finite value
divided by an infinity (which yields a zero).  That exception can only make
the subtrahend of a Newton step finite; the step itself subtracts from an
already non-finite iterate and so stays non-finite exactly as in this model.
Division of a finite value by finite zero yields ±∞ or NaN in IEEE, i.e.
`nonfin`.
-/
namespace FPModel

/-- An IEEE double: a finite exact rational, or a non-finite value
(±infinity or NaN, collapsed into one absorbing element). -/
inductive FP where
  | fin (q : ℚ)
  | nonfin
deriving DecidableEq

/-- IEEE addition: finite on finite operands, otherwise non-finite. -/
def add : FP → FP → FP
  | FP.fin a, FP.fin b => FP.fin (a + b)
  | _, _ => FP.nonfin

/-- IEEE subtraction: finite on finite operands, otherwise non-finite. -/
def sub : FP → FP → FP
  | FP.fin a, FP.fin b => FP.fin (a - b)
  | _, _ => FP.nonfin

/-- IEEE multiplication: finite on finite operands, otherwise non-finite. -/
def mul : FP → FP → FP
  | FP.fin a, FP.fin b => FP.fin (a * b)
  | _, _ => FP.nonfin

/-- IEEE division: finite on finite operands with a non-zero divisor;
division by (finite) zero yields a non-finite value (±∞ or NaN), and a
non-finite operand propagates. -/
def div : FP → FP → FP
  | FP.fin a, FP.fin b => if b = 0 then FP.nonfin else FP.fin (a / b)
  | _, _ => FP.nonfin

/-- `std::floor` on a double: floor of a finite value; `floor(±∞) = ±∞`
and `floor(NaN) = NaN`, i.e. non-finite stays non-finite. -/
def floorFP : FP → FP
  | FP.fin a => FP.fin (⌊a⌋ : ℚ)
  | FP.nonfin => FP.nonfin

/-- `LARGE` of `src/include/Calculus.h` as a double. -/
def LARGE : FP := FP.fin 10000

/-- `SMALL = 1/LARGE` as a double. -/
def SMALL : FP := FP.fin (1 / 10000)

/-- `ACCURACY = 3`, as in the rational model. -/
def ACCURACY : ℕ := 3

/-- `round` over doubles: the same `floor(value * prod + 0.5) / prod` body
with every double operation interpreted in `FP`. -/
def roundFP (value : FP) (places : ℕ) : FP :=
  let prod : ℤ := 10 ^ places
  div (floorFP (add (mul value (FP.fin prod)) (FP.fin 0.5))) (FP.fin prod)

/-- `derivative` over doubles: `round((fx(x+SMALL)-fx(x))*LARGE, ACCURACY)`
with every double operation interpreted in `FP`. -/
def derivative (fx : FP → FP) (x : FP) : FP :=
  roundFP (mul (sub (fx (add x SMALL)) (fx x)) LARGE) ACCURACY

/-- The Newton update of `roots` over doubles:
`initial - (fx(initial)/derivative(fx)(initial))`. -/
def newtonStep (fx : FP → FP) (x : FP) : FP :=
  sub x (div (fx x) (derivative fx x))

/-- `roots` over doubles:
`if(iter == 0) return initial; else return roots(fx, initial - (fx(initial)/derivative(fx)(initial)), iter-1);`. -/
def roots (fx : FP → FP) (initial : FP) (iter : ℕ) : FP :=
  match iter with
  | 0 => initial
  | n + 1 => roots fx (sub initial (div (fx initial) (derivative fx initial))) n

end FPModel

namespace util

/-- The configuration state of `calc::util::Grapher`: viewport dimensions
(C++ `int`, embedded as ℤ) and the domain/range arrays `mXrange`, `mYrange`
(C++ `double[2]`, embedded as two rationals each). -/
structure Grapher where
  mTermWidth : ℤ
  mTermHeight : ℤ
  mXrange0 : ℚ
  mXrange1 : ℚ
  mYrange0 : ℚ
  mYrange1 : ℚ

/-- C++ conversion of a `double` to an integral type (`long`): truncation
toward zero. -/
def trunc (q : ℚ) : ℤ :=
  if q < 0 then ⌈q⌉ else ⌊q⌋

/-- `long mMap(long value, long lower, long upper, long newlower, long newupper)`:
`(value - lower) * (newupper - newlower) / (upper - lower) + newlower`, where
`/` is C++ `long` division, which truncates toward zero (`Int.tdiv`). -/
def mMap (value lower upper newlower newupper : ℤ) : ℤ :=
  Int.tdiv ((value - lower) * (newupper - newlower)) (upper - lower) + newlower

/-- The `pixelToX` lambda of `display()`:
`mMap(val, 0, mTermWidth-1, mXrange[0], mXrange[1])`.  The `int` column is
widened to `long`, the `double` endpoints are truncated to `long`, and the
`long` result is converted back to `double`. -/
def pixelToX (g : Grapher) (val : ℤ) : ℚ :=
  (mMap val 0 (g.mTermWidth - 1) (trunc g.mXrange0) (trunc g.mXrange1) : ℚ)

/-- The `xToPixel` lambda of `display()`:
`int(mMap(val, mXrange[0], mXrange[1], 0, mTermWidth))`. -/
def xToPixel (g : Grapher) (val : ℚ) : ℤ :=
  mMap (trunc val) (trunc g.mXrange0) (trunc g.mXrange1) 0 g.mTermWidth

/-- The `yToPixel` lambda of `display()`:
`int(mMap(val, mYrange[0], mYrange[1], mTermHeight, 0))`. -/
def yToPixel (g : Grapher) (val : ℚ) : ℤ :=
  mMap (trunc val) (trunc g.mYrange0) (trunc g.mYrange1) g.mTermHeight 0

/-- The default-constructed `Grapher`: 80×24 viewport, domain and range
both `[-10, 10]`. -/
def defaultGrapher : Grapher :=
  ⟨80, 24, -10, 10, -10, 10⟩

/-- One column of the function-plotting loop of `display()`: sample
`result = fx(pixelToX(i))`; if `result < mYrange[0] || result > mYrange[1]`
the column is skipped (`none`), else the loop computes
`pixel_y = yToPixel(result)` and writes `screen[pixel_y][i]`
(`some pixel_y`). -/
def sampleRow (g : Grapher) (fx : ℚ → ℚ) (i : ℤ) : Option ℤ :=
  let result := fx (pixelToX g i)
  if result < g.mYrange0 ∨ result > g.mYrange1 then none
  else some (yToPixel g result)

end util

/-- Stepping the loop variable by `SMALL` drops the scaled floor measure by
exactly one. -/
theorem CalcInc.floor_step (bound i : ℚ) :
    ⌊(bound - (i + CalcInc.SMALL)) * CalcInc.LARGE⌋
      = ⌊(bound - i) * CalcInc.LARGE⌋ - 1 := by
  have h1 : (bound - (i + CalcInc.SMALL)) * CalcInc.LARGE
      = (bound - i) * CalcInc.LARGE + ((-1 : ℤ) : ℚ) := by
    simp only [CalcInc.SMALL, CalcInc.LARGE]; push_cast; ring
  rw [h1, Int.floor_add_int]
  omega

/-- One loop iteration consumes exactly one grid point. -/
theorem CalcInc.gridCount_step (bound i : ℚ) (h : i ≤ bound) :
    CalcInc.gridCount i bound
      = CalcInc.gridCount (i + CalcInc.SMALL) bound + 1 := by
  have h3 : (0 : ℤ) ≤ ⌊(bound - i) * CalcInc.LARGE⌋ :=
    Int.floor_nonneg.mpr (by
      have hbi : (0 : ℚ) ≤ bound - i := by linarith
      have hL : (0 : ℚ) ≤ CalcInc.LARGE := by norm_num [CalcInc.LARGE]
      exact mul_nonneg hbi hL)
  by_cases h2 : i + CalcInc.SMALL ≤ bound
  · have h4 : (0 : ℤ) ≤ ⌊(bound - (i + CalcInc.SMALL)) * CalcInc.LARGE⌋ :=
      Int.floor_nonneg.mpr (by
        have hbi : (0 : ℚ) ≤ bound - (i + CalcInc.SMALL) := by linarith
        have hL : (0 : ℚ) ≤ CalcInc.LARGE := by norm_num [CalcInc.LARGE]
        exact mul_nonneg hbi hL)
    simp only [CalcInc.gridCount, if_pos h, if_pos h2, CalcInc.floor_step]
    omega
  · have h5 : ⌊(bound - i) * CalcInc.LARGE⌋ = 0 := by
      have := CalcInc.floor_step bound i
      have h6 : (0 : ℤ) ≤ ⌊(bound - i) * CalcInc.LARGE⌋ := h3
      have h7 : ⌊(bound - (i + CalcInc.SMALL)) * CalcInc.LARGE⌋ < 0 := by
        apply Int.floor_lt.mpr
        have hbi : bound - (i + CalcInc.SMALL) < 0 := by
          by_contra hc
          exact h2 (by linarith)
        have hL : (0 : ℚ) < CalcInc.LARGE := by norm_num [CalcInc.LARGE]
        push_cast
        exact mul_neg_of_neg_of_pos hbi hL
      omega
    simp only [CalcInc.gridCount, if_pos h, if_neg h2, h5]
    rfl

/-- The accumulation loop equals `ret` plus the grid sum over the remaining
grid points. -/
theorem CalcInc.integralLoop_eq_sum (fx : ℚ → ℚ) (bound : ℚ) :
    ∀ (n : ℕ) (i ret : ℚ), CalcInc.gridCount i bound = n →
      CalcInc.integralLoop fx bound i ret
        = ret + ∑ k ∈ Finset.range n, fx (i + k * CalcInc.SMALL) * CalcInc.SMALL := by
  intro n
  induction n with
  | zero =>
    intro i ret hn
    have hni : ¬ i ≤ bound := by
      intro hle
      rw [CalcInc.gridCount_step bound i hle] at hn
      omega
    rw [CalcInc.integralLoop, dif_neg hni]
    simp
  | succ n ih =>
    intro i ret hn
    have hle : i ≤ bound := by
      by_contra hc
      simp only [CalcInc.gridCount, if_neg hc] at hn
      omega
    have hstep : CalcInc.gridCount (i + CalcInc.SMALL) bound = n := by
      have := CalcInc.gridCount_step bound i hle
      omega
    have harg : ∀ k : ℕ,
        i + ((k : ℚ) + 1) * CalcInc.SMALL = i + CalcInc.SMALL + (k : ℚ) * CalcInc.SMALL := by
      intro k; ring
    rw [CalcInc.integralLoop, dif_pos hle, ih (i + CalcInc.SMALL) _ hstep,
        Finset.sum_range_succ']
    push_cast
    simp only [harg, zero_mul, add_zero]
    ring

/-- The loop started at `lower` with accumulator `0` computes exactly the
spec's grid sum over `[lower, bound]`. -/
theorem CalcInc.integralLoop_eq_specGridSum (fx : ℚ → ℚ) (lower bound : ℚ) :
    CalcInc.integralLoop fx bound lower 0 = CalcInc.specGridSum fx lower bound := by
  rw [CalcInc.integralLoop_eq_sum fx bound (CalcInc.gridCount lower bound) lower 0 rfl]
  simp [CalcInc.specGridSum]

/-- C1: `integral_definite(fx, lower, upper)` sums `fx` times `SMALL` over the
grid from `lower` up to `|upper|` stepping by `SMALL`, multiplies the
accumulated sum by `-1` when the original `upper` argument is negative (else
leaves it unchanged), and rounds to `ACCURACY` digits; in particular for
`fx(x) = x`, `integral_definite(fx, 0, -4) = -8`. -/
theorem integral_definite_spec_and_signflip_example :
    (∀ (fx : ℚ → ℚ) (lower upper : ℚ),
      CalcInc.integral_definite fx lower upper
        = CalcInc.round
            (CalcInc.specGridSum fx lower |upper| * (if upper < 0 then -1 else 1))
            CalcInc.ACCURACY) ∧
    CalcInc.integral_definite (fun x => x) 0 (-4) = -8 := by
  constructor
  · intro fx lower upper
    simp only [CalcInc.integral_definite, CalcInc.integralLoop_eq_specGridSum]
  · have h1 : |(-4 : ℚ)| = (4 : ℚ) := by norm_num
    have hcount : CalcInc.gridCount 0 4 = 40001 := by
      simp only [CalcInc.gridCount, CalcInc.LARGE]
      rw [if_pos (by norm_num : (0 : ℚ) ≤ 4)]
      rw [show ((4 : ℚ) - 0) * 10000 = ((40000 : ℤ) : ℚ) by norm_num,
          Int.floor_intCast]
      rfl
    have hsum : CalcInc.specGridSum (fun x => x) 0 4 = 8.0002 := by
      simp only [CalcInc.specGridSum, hcount, zero_add]
      rw [show (∑ k ∈ Finset.range 40001, ((k : ℚ) * CalcInc.SMALL) * CalcInc.SMALL)
            = (∑ k ∈ Finset.range 40001, (k : ℚ)) * (CalcInc.SMALL * CalcInc.SMALL) by
        rw [Finset.sum_mul]
        exact Finset.sum_congr rfl fun k _ => by ring]
      rw [show (∑ k ∈ Finset.range 40001, (k : ℚ))
            = ((∑ k ∈ Finset.range 40001, k : ℕ) : ℚ) by push_cast; rfl]
      rw [Finset.sum_range_id]
      norm_num [CalcInc.SMALL, CalcInc.LARGE]
    simp only [CalcInc.integral_definite, CalcInc.integralLoop_eq_specGridSum, h1, hsum]
    rw [if_pos (by norm_num : (-4 : ℚ) < 0)]
    simp only [CalcInc.round, CalcInc.ACCURACY]
    norm_num

/-- C3: `round(value, places)` equals `floor(value * 10^places + 0.5) / 10^places`
(round half away from zero toward positive infinity on the scaled value), and
in particular `round(2.345, 2) = 2.35`. -/
theorem round_spec_and_example :
    (∀ (value : ℚ) (places : ℕ),
      CalcInc.round value places
        = (⌊value * (10 : ℚ) ^ places + 0.5⌋ : ℚ) / (10 : ℚ) ^ places) ∧
    CalcInc.round 2.345 2 = 2.35 := by
  constructor
  · intro value places
    simp only [CalcInc.round]
    push_cast
    rfl
  · show (⌊(2.345 : ℚ) * ((10 ^ 2 : ℤ) : ℚ) + 0.5⌋ : ℚ) / ((10 ^ 2 : ℤ) : ℚ) = 2.35
    norm_num

/-- C4: `round` is idempotent: `round(round(x, p), p) = round(x, p)` for every
value `x` and every number of places `p`. -/
theorem round_idempotent (x : ℚ) (p : ℕ) :
    CalcInc.round (CalcInc.round x p) p = CalcInc.round x p := by
  have hfloor : ∀ m : ℤ, ⌊(m : ℚ) + 0.5⌋ = m := by
    intro m
    rw [Int.floor_eq_iff]
    constructor <;> norm_num
  simp only [CalcInc.round]
  push_cast
  rw [div_mul_cancel₀ _ (by positivity : ((10 : ℚ) ^ p) ≠ 0), hfloor]

/-- C5: `derivative(fx)` returns the function
`g(x) = round((fx(x + SMALL) - fx(x)) * LARGE, ACCURACY)`, and evaluating `g`
at a point makes exactly two calls to `fx` (shown by the instrumented
call-counting semantics `derivativeCount`, which computes the same value and
counts exactly 2 applications). -/
theorem derivative_spec_and_two_calls :
    (∀ (fx : ℚ → ℚ) (x : ℚ),
      CalcInc.derivative fx x
        = CalcInc.round ((fx (x + CalcInc.SMALL) - fx x) * CalcInc.LARGE)
            CalcInc.ACCURACY) ∧
    (∀ (fx : ℚ → ℚ) (x : ℚ),
      (CalcInc.derivativeCount fx x).1 = CalcInc.derivative fx x ∧
      (CalcInc.derivativeCount fx x).2 = 2) := by
  refine ⟨fun fx x => rfl, fun fx x => ⟨rfl, rfl⟩⟩

/-- When `lower = upper = v ≥ 0` the loop bound `|v|` equals `v`, so the loop
body executes exactly once: the grid over `[v, v]` has the single point `v`. -/
theorem CalcInc.gridCount_self (v : ℚ) :
    CalcInc.gridCount v v = 1 := by
  simp only [CalcInc.gridCount, if_pos (le_refl v)]
  rw [show (v - v) * CalcInc.LARGE = ((0 : ℤ) : ℚ) by push_cast; ring,
      Int.floor_intCast]
  rfl

/-- C2 (counterexample): it is NOT the case that `integral(fx, 0)` evaluated
at `0` is `0` for every `fx`: for the constant function `fx(x) = 10000`,
`integral(fx, 0)(0) = integral_definite(fx, 0, 0) = 1 ≠ 0`, because the
accumulation loop `for(i = lower; i <= |upper|; i += SMALL)` runs its body
once even when `lower == upper`. -/
theorem integral_at_anchor_ne_zero :
    CalcInc.integral (fun _ => 10000) 0 0 ≠ 0 := by
  have h1 : CalcInc.integral (fun _ => (10000 : ℚ)) 0 0 = 1 := by
    show CalcInc.integral_definite (fun _ => (10000 : ℚ)) 0 0 = 1
    simp only [CalcInc.integral_definite, CalcInc.integralLoop_eq_specGridSum]
    rw [show |(0 : ℚ)| = (0 : ℚ) by norm_num]
    rw [if_neg (by norm_num : ¬ (0 : ℚ) < 0)]
    simp only [CalcInc.specGridSum, CalcInc.gridCount_self 0,
      Finset.sum_range_one]
    simp only [CalcInc.round, CalcInc.SMALL, CalcInc.LARGE, CalcInc.ACCURACY]
    norm_num
  rw [h1]
  norm_num

/-- C2 (amended): when `lower == upper = v` with `v ≥ 0`, the accumulation
loop samples `fx` exactly once (at `v`), so
`integral(fx, v)(v) = integral_definite(fx, v, v) = round(fx(v)*SMALL, ACCURACY)`;
this is `0` only when `fx(v)*SMALL` rounds to `0`, not for every `fx`. -/
theorem integral_at_anchor_one_sample (fx : ℚ → ℚ) (v : ℚ) (hv : 0 ≤ v) :
    CalcInc.integral fx v v = CalcInc.round (fx v * CalcInc.SMALL) CalcInc.ACCURACY := by
  show CalcInc.integral_definite fx v v = _
  simp only [CalcInc.integral_definite, CalcInc.integralLoop_eq_specGridSum]
  rw [abs_of_nonneg hv]
  rw [if_neg (by linarith : ¬ v < 0)]
  simp only [CalcInc.specGridSum, CalcInc.gridCount_self v, Finset.sum_range_one]
  rw [show v + ((0 : ℕ) : ℚ) * CalcInc.SMALL = v by push_cast; ring]
  rw [mul_one]

/-- C2 (witness for the amended theorem): the hypotheses hold at
`fx(x) = 10000`, `v = 0`, where the one-sample formula gives the value `1`. -/
theorem integral_at_anchor_one_sample_witness :
    (0 : ℚ) ≤ 0 ∧
    CalcInc.integral (fun _ => 10000) 0 0
      = CalcInc.round ((10000 : ℚ) * CalcInc.SMALL) CalcInc.ACCURACY :=
  ⟨le_refl 0, integral_at_anchor_one_sample (fun _ => 10000) 0 (le_refl 0)⟩

/-- C6: `roots(fx, initial, iter)` performs exactly `iter` Newton iterations
`x_{n+1} = x_n - fx(x_n)/derivative(fx)(x_n)` starting from `initial` and
returns the final iterate, with no early exit; `iter == 0` returns `initial`
unchanged. -/
theorem roots_is_iterated_newton :
    (∀ (fx : ℚ → ℚ) (initial : ℚ) (iter : ℕ),
      CalcInc.roots fx initial iter = (CalcInc.newtonStep fx)^[iter] initial) ∧
    (∀ (fx : ℚ → ℚ) (initial : ℚ), CalcInc.roots fx initial 0 = initial) := by
  constructor
  · intro fx initial iter
    induction iter generalizing initial with
    | zero => rfl
    | succ n ih =>
      rw [CalcInc.roots, ih, Function.iterate_succ_apply]
      rfl
  · intro fx initial
    rfl

/-- Subtracting anything from a non-finite double is non-finite. -/
theorem FPModel.sub_nonfin_left (y : FPModel.FP) :
    FPModel.sub FPModel.FP.nonfin y = FPModel.FP.nonfin := by
  cases y <;> rfl

/-- Subtracting a non-finite double from anything is non-finite. -/
theorem FPModel.sub_nonfin_right (x : FPModel.FP) :
    FPModel.sub x FPModel.FP.nonfin = FPModel.FP.nonfin := by
  cases x <;> rfl

/-- Dividing any double by (finite) zero is non-finite. -/
theorem FPModel.div_zero_denom (x : FPModel.FP) :
    FPModel.div x (FPModel.FP.fin 0) = FPModel.FP.nonfin := by
  cases x
  · simp [FPModel.div]
  · rfl

/-- A Newton step taken where the derivative evaluates to (finite) zero
produces a non-finite iterate. -/
theorem FPModel.newtonStep_of_deriv_zero (fx : FPModel.FP → FPModel.FP)
    (x : FPModel.FP) (hz : FPModel.derivative fx x = FPModel.FP.fin 0) :
    FPModel.newtonStep fx x = FPModel.FP.nonfin := by
  rw [FPModel.newtonStep, hz, FPModel.div_zero_denom, FPModel.sub_nonfin_right]

/-- A Newton step taken from a non-finite iterate stays non-finite. -/
theorem FPModel.newtonStep_nonfin (fx : FPModel.FP → FPModel.FP) :
    FPModel.newtonStep fx FPModel.FP.nonfin = FPModel.FP.nonfin := by
  rw [FPModel.newtonStep, FPModel.sub_nonfin_left]

/-- `roots` over doubles is the `iter`-fold Newton step. -/
theorem FPModel.roots_eq_iterate (fx : FPModel.FP → FPModel.FP)
    (initial : FPModel.FP) (iter : ℕ) :
    FPModel.roots fx initial iter = (FPModel.newtonStep fx)^[iter] initial := by
  induction iter generalizing initial with
  | zero => rfl
  | succ n ih =>
    rw [FPModel.roots, ih, Function.iterate_succ_apply]
    rfl

/-- Iterating the Newton step any number of times from a non-finite iterate
stays non-finite. -/
theorem FPModel.iterate_newtonStep_nonfin (fx : FPModel.FP → FPModel.FP)
    (k : ℕ) :
    (FPModel.newtonStep fx)^[k] FPModel.FP.nonfin = FPModel.FP.nonfin := by
  induction k with
  | zero => rfl
  | succ n ih => rw [Function.iterate_succ_apply', ih, FPModel.newtonStep_nonfin]

/-- C7: if the derivative evaluates to zero at some iterate of `roots`, the
Newton step's division yields a non-finite value that propagates through all
remaining iterations and is returned as-is (no error is raised: `roots` is a
total function in this model). -/
theorem roots_div_by_zero_propagates_nonfinite
    (fx : FPModel.FP → FPModel.FP) (x0 : FPModel.FP) (iter n : ℕ)
    (hn : n < iter)
    (hz : FPModel.derivative fx ((FPModel.newtonStep fx)^[n] x0)
            = FPModel.FP.fin 0) :
    FPModel.roots fx x0 iter = FPModel.FP.nonfin := by
  rw [FPModel.roots_eq_iterate]
  rw [show iter = (iter - n - 1) + (n + 1) by omega, Function.iterate_add_apply]
  rw [Function.iterate_succ_apply', FPModel.newtonStep_of_deriv_zero fx _ hz,
      FPModel.iterate_newtonStep_nonfin]

/-- C7 (witness): for the constant function `fx(x) = 1` started at `x0 = 0`
with `iter = 1`, the derivative at iteration `n = 0` is exactly `0`, and
`roots` returns the non-finite value. -/
theorem roots_div_by_zero_propagates_nonfinite_witness :
    0 < 1 ∧
    FPModel.derivative (fun _ => FPModel.FP.fin 1)
        ((FPModel.newtonStep (fun _ => FPModel.FP.fin 1))^[0] (FPModel.FP.fin 0))
      = FPModel.FP.fin 0 ∧
    FPModel.roots (fun _ => FPModel.FP.fin 1) (FPModel.FP.fin 0) 1
      = FPModel.FP.nonfin :=
  ⟨by decide,
    by norm_num [FPModel.derivative, FPModel.roundFP, FPModel.add, FPModel.sub,
      FPModel.mul, FPModel.div, FPModel.floorFP, FPModel.LARGE, FPModel.SMALL,
      FPModel.ACCURACY],
    roots_div_by_zero_propagates_nonfinite (fun _ => FPModel.FP.fin 1)
      (FPModel.FP.fin 0) 1 0 (by decide)
      (by norm_num [FPModel.derivative, FPModel.roundFP, FPModel.add, FPModel.sub,
        FPModel.mul, FPModel.div, FPModel.floorFP, FPModel.LARGE, FPModel.SMALL,
        FPModel.ACCURACY])⟩

/-- C10: `iterate(fx, times, value)` terminates for every rational `times`
(it is a total function in this embedding) and applies `fx` exactly
`max(0, ceil(times))` times, decrementing `times` by `1` per step until it
is `≤ 0`. -/
theorem iterate_applies_ceil_times (fx : ℚ → ℚ) (times value : ℚ) :
    CalcInc.iterate fx times value = fx^[(max 0 ⌈times⌉).toNat] value := by
  have key : ∀ (n : ℕ) (t : ℚ), ⌈t⌉.toNat = n →
      CalcInc.iterate fx t value = fx^[n] value := by
    intro n
    induction n with
    | zero =>
      intro t hn
      have ht : t ≤ 0 := by
        have : ⌈t⌉ ≤ 0 := by omega
        exact_mod_cast Int.ceil_le.mp this
      rw [CalcInc.iterate, dif_pos ht]
      rfl
    | succ n ih =>
      intro t hn
      have hpos : 0 < ⌈t⌉ := by omega
      have ht : ¬ t ≤ 0 := by
        have : 0 < t := Int.ceil_pos.mp hpos
        linarith
      have hsub : ⌈t - 1⌉.toNat = n := by
        rw [show (t - 1 : ℚ) = t - ((1 : ℤ) : ℚ) by push_cast; ring,
            Int.ceil_sub_int]
        omega
      rw [CalcInc.iterate, dif_neg ht, ih (t - 1) hsub,
          Function.iterate_succ_apply']
  have hmax : (max 0 ⌈times⌉).toNat = ⌈times⌉.toNat := by
    rcases le_total (⌈times⌉ : ℤ) 0 with h | h
    · rw [max_eq_left h]; omega
    · rw [max_eq_right h]
  rw [hmax]
  exact key ⌈times⌉.toNat times rfl

/-- C8 (counterexample): the pixel-column-to-x map of `display()` is NOT the
real-number affine map from `[0, width-1]` onto `[x_min, x_max]`: with the
default configuration (width 80, domain `[-10, 10]`), column `1` maps to
`-10` (because `mMap` works on `long`s with truncating integer division),
while the real affine map gives `-10 + 1*(10-(-10))/79 = -770/79 ≠ -10`. -/
theorem pixelToX_not_real_affine :
    util.pixelToX util.defaultGrapher 1
      ≠ -10 + 1 * (10 - (-10)) / ((80 : ℚ) - 1) := by
  have h : util.pixelToX util.defaultGrapher 1 = -10 := by decide
  rw [h]
  norm_num

/-- C8 (amended): the coordinate maps of `display()` are the affine maps
computed in `long` integer arithmetic: the `double` interval endpoints are
truncated toward zero and the quotient is C++ truncating integer division
(`Int.tdiv`).  The column-to-x map sends column `i` to
`(i * (trunc x_max - trunc x_min)) tdiv (width - 1) + trunc x_min`, and the
value-to-row map sends `v` to
`((trunc v - trunc y_min) * (0 - height)) tdiv (trunc y_max - trunc y_min) + height`
(vertically inverted: the new interval runs from `height` down to `0`).
Only when the divisions are exact do these agree with the real affine maps. -/
theorem coordinate_maps_are_integer_affine (g : util.Grapher) (i : ℤ) (v : ℚ) :
    util.pixelToX g i
      = ((Int.tdiv (i * (util.trunc g.mXrange1 - util.trunc g.mXrange0))
            (g.mTermWidth - 1) + util.trunc g.mXrange0 : ℤ) : ℚ) ∧
    util.yToPixel g v
      = Int.tdiv ((util.trunc v - util.trunc g.mYrange0) * (0 - g.mTermHeight))
          (util.trunc g.mYrange1 - util.trunc g.mYrange0) + g.mTermHeight := by
  constructor
  · simp [util.pixelToX, util.mMap]
  · simp [util.yToPixel, util.mMap]

/-- C9: the claim that every sampled value within the configured range
`[y_min, y_max]` yields an in-bounds pixel row is violated by the code: with
the default configuration (80×24 viewport, range `[-10, 10]`), a sample
exactly equal to `y_min = -10` passes the range check, yet
`yToPixel(-10) = mMap(-10, -10, 10, 24, 0) = 24 = height`, so `display()`
writes `screen[24][i]` — one row past the end of the `height × width`
buffer. -/
theorem sample_at_ymin_writes_out_of_bounds :
    util.sampleRow util.defaultGrapher (fun _ => -10) 0
        = some util.defaultGrapher.mTermHeight ∧
    ¬ (util.defaultGrapher.mTermHeight
        ≤ util.defaultGrapher.mTermHeight - 1) := by
  constructor
  · decide
  · decide
